import Mathlib

/-!
Shallow embedding of the Fijian data cleaning pipeline
(`src/fijian_data_cleaning_pipeline.py`, class `FijianDataCleaner`).

Strings are modelled as `List Char`.  Python character classes (`\w`, `\s`,
`str.isalpha`) are modelled at their ASCII meaning, which is what all the
inputs considered here exercise.  The floating-point comparison
`alpha_chars / len(text) < 0.6` is modelled exactly over the naturals as
`5 * alpha_chars < 3 * len(text)`.
-/

namespace FijianPipeline

/-- Python `str.isspace` / regex `\s` membership for the whitespace
characters occurring in text files (ASCII model). -/
def isSpace (c : Char) : Bool :=
  c = ' ' || c = '\t' || c = '\n' || c = '\r' || c = '\x0b' || c = '\x0c'

/-- Regex `\w` (word character): letter, digit or underscore (ASCII model). -/
def isWordChar (c : Char) : Bool :=
  c.isAlphanum || c = '_'

/-- The fixed punctuation allow-list of `clean_text`:
hyphen, apostrophe, period, comma, semicolon, colon, exclamation mark,
question mark, parentheses.  `Char.ofNat 39` is the apostrophe. -/
def isAllowedPunct (c : Char) : Bool :=
  c = '-' || c = Char.ofNat 39 || c = '.' || c = ',' || c = ';' || c = ':' ||
  c = '!' || c = '?' || c = '(' || c = ')'

/-- A character kept by the final filtering step of `clean_text`
(regex `[^\w\s\-\'\.,;:!?()]` is removed, so these are kept). -/
def allowedChar (c : Char) : Bool :=
  isWordChar c || isSpace c || isAllowedPunct c

/-- One-pass scanner realizing `re.sub(r'<[^>]+>', '', text)`.
`none` state: outside any candidate tag.  `some buf` state: a `<` has been
read, `buf` holds (reversed) the non-`>` characters read since; on a `>`
with non-empty `buf` the whole candidate is dropped, on a `>` with empty
`buf` the literal `<>` is kept (the regex requires at least one inner
character), and at end of input an unclosed candidate is emitted verbatim
(no `>` follows, so no match could start inside it). -/
def rtAux : Option (List Char) → List Char → List Char
  | none, [] => []
  | none, c :: rest =>
    if c = '<' then rtAux (some []) rest else c :: rtAux none rest
  | some buf, [] => '<' :: buf.reverse
  | some buf, c :: rest =>
    if c = '>' then
      if buf.isEmpty then '<' :: '>' :: rtAux none rest
      else rtAux none rest
    else rtAux (some (c :: buf)) rest

/-- `re.sub(r'<[^>]+>', '', text)`: the HTML-tag stripping step of
`clean_text`. -/
def removeTags (l : List Char) : List Char :=
  rtAux none l

/-- One-pass scanner realizing `re.sub(r'\s+', ' ', text)`: the flag
records whether the previous character was whitespace (so the current
run has already emitted its single space). -/
def cwAux : Bool → List Char → List Char
  | _, [] => []
  | prevWs, c :: rest =>
    if isSpace c then
      if prevWs then cwAux true rest else ' ' :: cwAux true rest
    else c :: cwAux false rest

/-- `re.sub(r'\s+', ' ', text)`: the whitespace-collapsing step of
`clean_text`. -/
def collapseWs (l : List Char) : List Char :=
  cwAux false l

/-- Leading-whitespace removal (half of `str.strip`). -/
def dropLead (l : List Char) : List Char :=
  l.dropWhile isSpace

/-- Trailing-whitespace removal (half of `str.strip`). -/
def dropTrail (l : List Char) : List Char :=
  (l.reverse.dropWhile isSpace).reverse

/-- Python `str.strip()`. -/
def strip (l : List Char) : List Char :=
  dropTrail (dropLead l)

/-- `FijianDataCleaner.clean_text`: empty (falsy) input yields the empty
string; otherwise strip tags, collapse whitespace runs to one space,
remove disallowed characters, and strip the ends. -/
def cleanText (text : List Char) : List Char :=
  if text.isEmpty then []
  else strip (List.filter allowedChar (collapseWs (removeTags text)))

/-- Python `str.split()` with no separator: whitespace-delimited words,
empty words discarded.  The accumulator holds the current word reversed. -/
def pySplitAux : List Char → List Char → List (List Char)
  | acc, [] => if acc.isEmpty then [] else [acc.reverse]
  | acc, c :: rest =>
    if isSpace c then
      if acc.isEmpty then pySplitAux [] rest
      else acc.reverse :: pySplitAux [] rest
    else pySplitAux (c :: acc) rest

/-- Python `text.split()` (no-argument split). -/
def pySplit (text : List Char) : List (List Char) :=
  pySplitAux [] text

/-- `FijianDataCleaner.is_valid_fijian_text`: reject falsy/short strings,
then single-token strings, then strings whose alphabetic-character ratio
is below 0.6 (`5 * alpha < 3 * len` models `alpha / len < 0.6` exactly). -/
def is_valid_fijian_text (text : List Char) : Bool :=
  if text = [] ∨ (strip text).length < 3 then false
  else if (pySplit text).length < 2 then false
  else if 5 * (text.countP Char.isAlpha) < 3 * text.length then false
  else true

/-- A dictionary record as built by `process_dictionary_file`
(the dicts `{'fijian_word': ..., 'english_definition': ..., 'source': ...}`). -/
structure DictionaryEntry where
  fijian_word : List Char
  english_definition : List Char
  source : List Char
deriving DecidableEq

/-- Split a list at every occurrence of the separator character
(`str.split(sep)` semantics: empty segments are kept). -/
def splitOnCharAux (sep : Char) : List Char → List Char → List (List Char)
  | acc, [] => [acc.reverse]
  | acc, c :: rest =>
    if c = sep then acc.reverse :: splitOnCharAux sep [] rest
    else splitOnCharAux sep (c :: acc) rest

/-- `str.split(sep)` for a one-character separator. -/
def splitOnChar (sep : Char) (l : List Char) : List (List Char) :=
  splitOnCharAux sep [] l

/-- `line.split(' - ', 1)` when `' - '` occurs in `line`:
split at the first occurrence of the three-character separator, returning
the parts before and after it; `none` when the separator is absent. -/
def splitOnSep : List Char → Option (List Char × List Char)
  | ' ' :: '-' :: ' ' :: rest => some ([], rest)
  | c :: rest =>
    match splitOnSep rest with
    | some (pre, post) => some (c :: pre, post)
    | none => none
  | [] => none

/-- Models `pandas.read_csv` on the simple files exercised here (no
quoting or escaping): rows are newline-separated, blank lines are
skipped (`skip_blank_lines`), fields are comma-separated; the first
row is the header. -/
def parseCsvSimple (content : List Char) : List (List (List Char)) :=
  ((splitOnChar '\n' content).filter (fun l => !l.isEmpty)).map (splitOnChar ',')

/-- `pathlib.PurePath.suffix` of a base file name: the part from the last
dot on, empty when the last dot is the first character or the final one. -/
def suffixOf (name : List Char) : List Char :=
  match name.reverse.findIdx? (fun c => c = '.') with
  | none => []
  | some j =>
    let i := name.length - 1 - j
    if 0 < i ∧ i < name.length - 1 then name.drop i else []

/-- `file_path.suffix.lower()`. -/
def lowerSuffix (name : List Char) : List Char :=
  (suffixOf name).map Char.toLower

/-- Python substring test `pat in l`. -/
def containsSub (pat : List Char) : List Char → Bool
  | [] => pat.isEmpty
  | c :: rest => pat.isPrefixOf (c :: rest) || containsSub pat rest

/-- The column names the CSV branch of `process_dictionary_file` requires. -/
def wordCol : List Char := "fijian_word".toList

/-- The definition column name required by the CSV branch. -/
def defCol : List Char := "english_definition".toList

/-- The per-row body of the CSV branch of `process_dictionary_file`:
clean both cells, keep the row only when the cleaned headword passes
`is_valid_fijian_text` and the cleaned definition is non-empty (truthy). -/
def processCsvRow (fname : List Char) (row : List Char × List Char) :
    Option DictionaryEntry :=
  if is_valid_fijian_text (cleanText row.1) = true ∧ cleanText row.2 ≠ [] then
    some ⟨cleanText row.1, cleanText row.2, fname⟩
  else none

/-- The CSV branch of `process_dictionary_file` over the parsed table:
`rows` are the `(fijian_word, english_definition)` cell pairs of the
DataFrame; nothing is emitted unless both required columns are present. -/
def process_dictionary_csv (cols : List (List Char))
    (rows : List (List Char × List Char)) (fname : List Char) :
    List DictionaryEntry :=
  if wordCol ∈ cols ∧ defCol ∈ cols then rows.filterMap (processCsvRow fname)
  else []

/-- The per-line body of the `.txt` branch of `process_dictionary_file`:
strip the line, skip blank lines, split at the first `' - '`, clean both
parts, and keep them under the same acceptance rule as the CSV branch;
the source is `f"{name}:L{line_num}"`. -/
def processTxtLine (fname : List Char) (lineNum : Nat) (rawLine : List Char) :
    Option DictionaryEntry :=
  if strip rawLine = [] then none
  else
    match splitOnSep (strip rawLine) with
    | none => none
    | some (p1, p2) =>
      if is_valid_fijian_text (cleanText p1) = true ∧ cleanText p2 ≠ [] then
        some ⟨cleanText p1, cleanText p2,
          fname ++ ":L".toList ++ Nat.toDigits 10 lineNum⟩
      else none

/-- The `.txt` branch of `process_dictionary_file`: lines are enumerated
from 1 (blank lines included in the count). -/
def process_dictionary_txt (fname content : List Char) : List DictionaryEntry :=
  ((splitOnChar '\n' content).enumFrom 1).filterMap
    (fun p => processTxtLine fname p.1 p.2)

/-- `FijianDataCleaner.process_dictionary_file`: dispatch on the
lowercased extension; any other extension falls through the `try` block
with no matching branch and yields the empty list. -/
def process_dictionary_file (name content : List Char) : List DictionaryEntry :=
  if lowerSuffix name = ".csv".toList then
    match parseCsvSimple content with
    | [] => []
    | header :: dataRows =>
      process_dictionary_csv header
        (dataRows.map (fun r =>
          (r.getD (header.findIdx (fun c => c == wordCol)) [],
           r.getD (header.findIdx (fun c => c == defCol)) [])))
        name
  else if lowerSuffix name = ".txt".toList then
    process_dictionary_txt name content
  else []

/-- A sentence-terminal character of `re.split(r'[.!?]+', content)`. -/
def isTerm (c : Char) : Bool :=
  c = '.' || c = '!' || c = '?'

/-- One-pass scanner realizing `re.split(r'[.!?]+', content)`: the flag
records whether the previous character belonged to a separator run. -/
def sSplitAux : Bool → List Char → List Char → List (List Char)
  | _, acc, [] => [acc.reverse]
  | inSep, acc, c :: rest =>
    if isTerm c then
      if inSep then sSplitAux true acc rest
      else acc.reverse :: sSplitAux true [] rest
    else sSplitAux false (c :: acc) rest

/-- `re.split(r'[.!?]+', content)`: the sentence split of
`process_text_file`. -/
def splitSentences (content : List Char) : List (List Char) :=
  sSplitAux false [] content

/-- `FijianDataCleaner.process_text_file` on the file's content: split
into raw sentences, clean each, keep the cleaned ones that validate. -/
def process_text_file (content : List Char) : List (List Char) :=
  (splitSentences content).filterMap (fun s =>
    if is_valid_fijian_text (cleanText s) = true then some (cleanText s)
    else none)

/-- Where `process_all_files` sends one file. -/
inductive Route where
  | dictionary
  | text
  | ignored
deriving DecidableEq

/-- The dispatch policy of `process_all_files`: a base name containing
`dict` or `dictionary` (case-insensitive) goes to the dictionary
extractor regardless of extension; otherwise a `.txt`/`.csv` extension
goes to the text extractor; otherwise the file contributes nothing. -/
def classifyFile (name : List Char) : Route :=
  let lname := name.map Char.toLower
  if containsSub "dict".toList lname = true ∨
      containsSub "dictionary".toList lname = true then Route.dictionary
  else if lowerSuffix name = ".txt".toList ∨ lowerSuffix name = ".csv".toList then
    Route.text
  else Route.ignored

/-- One record of `create_training_data`
(`{instruction, input, output, task_type}`). -/
structure TrainingExample where
  instruction : List Char
  input : List Char
  output : List Char
  task_type : List Char
deriving DecidableEq

/-- The record `create_training_data` appends for one dictionary entry. -/
def dictionaryExample (e : DictionaryEntry) : TrainingExample :=
  { instruction := "Define the Fijian word: ".toList ++ e.fijian_word
    input := e.fijian_word
    output := e.english_definition
    task_type := "definition".toList }

/-- The record `create_training_data` appends for one sentence:
`sentence[:len(sentence)//2]` and `sentence[len(sentence)//2:]`. -/
def completionExample (s : List Char) : TrainingExample :=
  { instruction := "Complete the following Fijian text:".toList
    input := s.take (s.length / 2)
    output := s.drop (s.length / 2)
    task_type := "completion".toList }

/-- `FijianDataCleaner.create_training_data`: one append per dictionary
entry, then one append per sentence, into one shared list. -/
def create_training_data (entries : List DictionaryEntry)
    (sentences : List (List Char)) : List TrainingExample :=
  let base := entries.foldl (fun acc e => acc ++ [dictionaryExample e]) []
  sentences.foldl (fun acc s => acc ++ [completionExample s]) base

/-- Two adjacent characters are not both whitespace: the shape
`re.sub(r'\s+', ' ', ...)` guarantees between neighbours. -/
def wsRel (a b : Char) : Prop :=
  ¬(isSpace a = true ∧ isSpace b = true)

instance : DecidableRel wsRel := fun a b =>
  inferInstanceAs (Decidable (¬(isSpace a = true ∧ isSpace b = true)))

/-- The CSV file content of the repository test
`test_process_dictionary_data`: header `fijian_word,english_definition`
and rows `bula,hello or life`, `vinaka,thank you`, `moce,goodbye`. -/
def testDictCsvContent : List Char :=
  "fijian_word,english_definition\nbula,hello or life\nvinaka,thank you\nmoce,goodbye\n".toList

/-- The tag scanner leaves a string without `<` untouched. -/
theorem removeTags_eq_self (l : List Char) (h : '<' ∉ l) :
    removeTags l = l := by
  unfold removeTags
  induction l with
  | nil => rfl
  | cons c rest ih =>
    have hc : ¬(c = '<') := fun hc => h (hc ▸ List.mem_cons_self c rest)
    simp only [rtAux, if_neg hc]
    rw [ih (fun hm => h (List.mem_cons_of_mem c hm))]

/-- Every character of the collapsed string comes from the input or is
the substituted single space. -/
theorem mem_cwAux (b : Bool) (l : List Char) (c : Char)
    (h : c ∈ cwAux b l) : c ∈ l ∨ c = ' ' := by
  induction l generalizing b with
  | nil => cases h
  | cons a rest ih =>
    by_cases hs : isSpace a = true
    · simp only [cwAux, hs, if_pos] at h
      cases b with
      | true =>
        rcases ih true h with h1 | h1
        · exact Or.inl (List.mem_cons_of_mem a h1)
        · exact Or.inr h1
      | false =>
        rcases List.mem_cons.1 h with rfl | h1
        · exact Or.inr rfl
        · rcases ih true h1 with h2 | h2
          · exact Or.inl (List.mem_cons_of_mem a h2)
          · exact Or.inr h2
    · simp only [cwAux, hs, if_neg] at h
      rcases List.mem_cons.1 h with rfl | h1
      · exact Or.inl (List.mem_cons_self c rest)
      · rcases ih false h1 with h2 | h2
        · exact Or.inl (List.mem_cons_of_mem a h2)
        · exact Or.inr h2

/-- Every whitespace character of the collapsed string is the plain
space character. -/
theorem cwAux_ws_space (b : Bool) (l : List Char) :
    ∀ c ∈ cwAux b l, isSpace c = true → c = ' ' := by
  induction l generalizing b with
  | nil => intro c h; cases h
  | cons a rest ih =>
    intro c hc hspace
    by_cases hs : isSpace a = true
    · simp only [cwAux, hs, if_pos] at hc
      cases b with
      | true => exact ih true c hc hspace
      | false =>
        rcases List.mem_cons.1 hc with rfl | h1
        · rfl
        · exact ih true c h1 hspace
    · simp only [cwAux, hs, if_neg] at hc
      rcases List.mem_cons.1 hc with rfl | h1
      · exact absurd hspace hs
      · exact ih false c h1 hspace

/-- Unfolding equation for `cwAux` on a cons cell. -/
theorem cwAux_cons (b : Bool) (a : Char) (rest : List Char) :
    cwAux b (a :: rest) =
      if isSpace a = true then
        (if b = true then cwAux true rest else ' ' :: cwAux true rest)
      else a :: cwAux false rest := rfl

/-- The collapsed string has no two adjacent whitespace characters, and
in the just-after-whitespace state it cannot start with whitespace. -/
theorem cwAux_chain (l : List Char) :
    List.Chain' wsRel (cwAux true l) ∧
      (∀ c ∈ (cwAux true l).head?, isSpace c = false) ∧
      List.Chain' wsRel (cwAux false l) := by
  induction l with
  | nil =>
    refine ⟨List.chain'_nil, ?_, List.chain'_nil⟩
    intro c h
    cases h
  | cons a rest ih =>
    by_cases hs : isSpace a = true
    · rw [cwAux_cons, cwAux_cons, if_pos hs, if_pos hs, if_pos rfl,
        if_neg Bool.false_ne_true]
      refine ⟨ih.1, ih.2.1, List.chain'_cons'.2 ⟨?_, ih.1⟩⟩
      intro y hy hand
      rw [ih.2.1 y hy] at hand
      exact Bool.false_ne_true hand.2
    · rw [Bool.not_eq_true] at hs
      rw [cwAux_cons, cwAux_cons, if_neg (by rw [hs]; exact Bool.false_ne_true),
        if_neg (by rw [hs]; exact Bool.false_ne_true)]
      refine ⟨?_, ?_, ?_⟩
      · refine List.chain'_cons'.2 ⟨?_, ih.2.2⟩
        intro y _ hand
        rw [hs] at hand
        exact Bool.false_ne_true hand.1
      · intro c h
        simp only [List.head?_cons, Option.mem_def, Option.some.injEq] at h
        rw [← h]
        exact hs
      · refine List.chain'_cons'.2 ⟨?_, ih.2.2⟩
        intro y _ hand
        rw [hs] at hand
        exact Bool.false_ne_true hand.1

/-- A string with single-space whitespace and no adjacent whitespace
pair is a fixed point of the whitespace collapser. -/
theorem cwAux_eq_self (l : List Char) (h1 : List.Chain' wsRel l)
    (h2 : ∀ c ∈ l, isSpace c = true → c = ' ') :
    cwAux false l = l ∧
      ((∀ c ∈ l.head?, isSpace c = false) → cwAux true l = l) := by
  induction l with
  | nil => exact ⟨rfl, fun _ => rfl⟩
  | cons a rest ih =>
    have ihr := ih h1.tail (fun c hc => h2 c (List.mem_cons_of_mem a hc))
    by_cases hs : isSpace a = true
    · have ha : a = ' ' := h2 a (List.mem_cons_self a rest) hs
      have htail : cwAux true rest = rest := by
        apply ihr.2
        intro c hc
        cases rest with
        | nil => cases hc
        | cons b t =>
          simp only [List.head?_cons, Option.mem_def, Option.some.injEq] at hc
          have hrel := (List.chain'_cons.1 h1).1
          rw [← hc]
          cases hsb : isSpace b
          · rfl
          · exact absurd ⟨hs, hsb⟩ hrel
      constructor
      · rw [cwAux_cons, if_pos hs, if_neg Bool.false_ne_true, htail, ha]
      · intro hhead
        have := hhead a (by simp)
        rw [hs] at this
        exact Bool.noConfusion this
    · rw [Bool.not_eq_true] at hs
      have hcond : ¬(isSpace a = true) := by
        rw [hs]
        exact Bool.false_ne_true
      constructor
      · rw [cwAux_cons, if_neg hcond, ihr.1]
      · intro _
        rw [cwAux_cons, if_neg hcond, ihr.1]

/-- Leading-whitespace removal preserves the no-adjacent-whitespace
property. -/
theorem chain_dropLead (l : List Char) (h : List.Chain' wsRel l) :
    List.Chain' wsRel (dropLead l) := by
  induction l with
  | nil => exact h
  | cons a rest ih =>
    unfold dropLead at ih ⊢
    rw [List.dropWhile_cons]
    split_ifs with hs
    · exact ih h.tail
    · exact h

/-- Characters survive `dropLead`. -/
theorem mem_dropLead (l : List Char) (c : Char) (h : c ∈ dropLead l) :
    c ∈ l :=
  (List.dropWhile_sublist isSpace).subset h

/-- `dropLead` removes a prefix. -/
theorem dropLead_suffix (l : List Char) : ∃ t, l = t ++ dropLead l := by
  induction l with
  | nil => exact ⟨[], rfl⟩
  | cons a rest ih =>
    unfold dropLead at ih ⊢
    rw [List.dropWhile_cons]
    split_ifs with hs
    · rcases ih with ⟨t, ht⟩
      exact ⟨a :: t, by rw [List.cons_append, ← ht]⟩
    · exact ⟨[], rfl⟩

/-- The head surviving `dropLead` is not whitespace. -/
theorem head_dropLead (l : List Char) :
    ∀ c ∈ (dropLead l).head?, isSpace c = false := by
  induction l with
  | nil => intro c h; cases h
  | cons a rest ih =>
    unfold dropLead at ih ⊢
    rw [List.dropWhile_cons]
    split_ifs with hs
    · exact ih
    · intro c h
      simp only [List.head?_cons, Option.mem_def, Option.some.injEq] at h
      rw [← h]
      cases hsa : isSpace a
      · rfl
      · exact absurd hsa hs

/-- A string whose head is not whitespace is a fixed point of
`dropLead`. -/
theorem dropLead_eq_self (l : List Char)
    (h : ∀ c ∈ l.head?, isSpace c = false) : dropLead l = l := by
  cases l with
  | nil => rfl
  | cons a rest =>
    unfold dropLead
    rw [List.dropWhile_cons, if_neg]
    rw [h a (by simp)]
    exact Bool.false_ne_true

/-- `dropLead` is idempotent. -/
theorem dropLead_dropLead (l : List Char) :
    dropLead (dropLead l) = dropLead l :=
  dropLead_eq_self _ (head_dropLead l)

/-- `dropTrail` is `dropLead` conjugated by reversal. -/
theorem dropTrail_eq (l : List Char) :
    dropTrail l = (dropLead l.reverse).reverse := rfl

/-- Characters survive `dropTrail`. -/
theorem mem_dropTrail (l : List Char) (c : Char) (h : c ∈ dropTrail l) :
    c ∈ l := by
  rw [dropTrail_eq] at h
  exact List.mem_reverse.1 (mem_dropLead _ _ (List.mem_reverse.1 h))

/-- `wsRel` is symmetric. -/
theorem wsRel_symm (a b : Char) (h : wsRel a b) : wsRel b a :=
  fun hand => h ⟨hand.2, hand.1⟩

/-- Reversal preserves the no-adjacent-whitespace property. -/
theorem chain_reverse_wsRel (l : List Char) (h : List.Chain' wsRel l) :
    List.Chain' wsRel l.reverse :=
  List.chain'_reverse.2 (h.imp (fun a b hab => wsRel_symm a b hab))

/-- Trailing-whitespace removal preserves the no-adjacent-whitespace
property. -/
theorem chain_dropTrail (l : List Char) (h : List.Chain' wsRel l) :
    List.Chain' wsRel (dropTrail l) := by
  rw [dropTrail_eq]
  exact chain_reverse_wsRel _ (chain_dropLead _ (chain_reverse_wsRel _ h))

/-- `dropTrail` is idempotent. -/
theorem dropTrail_dropTrail (l : List Char) :
    dropTrail (dropTrail l) = dropTrail l := by
  rw [dropTrail_eq, dropTrail_eq, List.reverse_reverse, dropLead_dropLead]

/-- Characters survive `strip`. -/
theorem mem_strip (l : List Char) (c : Char) (h : c ∈ strip l) : c ∈ l :=
  mem_dropLead _ _ (mem_dropTrail _ _ h)

/-- `strip` preserves the no-adjacent-whitespace property. -/
theorem chain_strip (l : List Char) (h : List.Chain' wsRel l) :
    List.Chain' wsRel (strip l) :=
  chain_dropTrail _ (chain_dropLead _ h)

/-- The head surviving `strip` is not whitespace. -/
theorem head_strip (l : List Char) :
    ∀ c ∈ (strip l).head?, isSpace c = false := by
  intro c hc
  unfold strip at hc
  rcases hdt : dropTrail (dropLead l) with _ | ⟨x, xs⟩
  · rw [hdt] at hc
    cases hc
  · rw [hdt] at hc
    simp only [List.head?_cons, Option.mem_def, Option.some.injEq] at hc
    rcases dropLead_suffix (dropLead l).reverse with ⟨t, ht⟩
    have hdec : dropLead l = dropTrail (dropLead l) ++ t.reverse := by
      conv_lhs => rw [← List.reverse_reverse (dropLead l), ht]
      rw [List.reverse_append, dropTrail_eq]
    apply head_dropLead l c
    rw [hdec, hdt]
    simp only [List.cons_append, List.head?_cons, Option.mem_def,
      Option.some.injEq]
    exact hc

/-- `strip` is idempotent. -/
theorem strip_strip (l : List Char) : strip (strip l) = strip l := by
  unfold strip
  rw [show dropLead (dropTrail (dropLead l)) = dropTrail (dropLead l) from
    dropLead_eq_self _ (head_strip l), dropTrail_dropTrail]

/-- Claim C1: the spec (and the repository test) state that extracting
the three-row `bula`/`vinaka`/`moce` CSV yields exactly 3 entries, the
first being `bula`.  The code instead yields 0 entries: each headword is
a single word, and `is_valid_fijian_text` rejects every string with
fewer than two whitespace-delimited words, so every row is dropped. -/
theorem csv_test_dict_yields_no_entries :
    process_dictionary_file "test_dict.csv".toList testDictCsvContent = [] := by
  decide

/-- Claim C2: `is_valid_fijian_text text` is true exactly when the
trimmed length is at least 3, the whitespace-delimited word count is at
least 2, and the alphabetic ratio over the original string is at least
0.6; being a conjunction, the outcome is independent of check order. -/
theorem is_valid_iff (text : List Char) :
    is_valid_fijian_text text = true ↔
      3 ≤ (strip text).length ∧ 2 ≤ (pySplit text).length ∧
        3 * text.length ≤ 5 * text.countP Char.isAlpha := by
  unfold is_valid_fijian_text
  split_ifs with h1 h2 h3
  · simp only [Bool.false_eq_true, false_iff]
    rintro ⟨ha, _, _⟩
    rcases h1 with rfl | h1
    · simp [strip, dropLead, dropTrail] at ha
    · omega
  · simp only [Bool.false_eq_true, false_iff]
    rintro ⟨_, hb, _⟩
    omega
  · simp only [Bool.false_eq_true, false_iff]
    rintro ⟨_, _, hc⟩
    omega
  · simp only [true_iff]
    push_neg at h1
    exact ⟨by omega, by omega, by omega⟩

/-- Claim C3: every entry the dictionary extractor produces — in the
CSV branch or the line-delimited branch — has a headword accepted by
`is_valid_fijian_text` and a non-empty cleaned definition, while the
definition itself is not validated (an entry whose definition fails the
validator is still produced). -/
theorem dictionary_entry_invariant :
    (∀ cols rows fname e, e ∈ process_dictionary_csv cols rows fname →
      is_valid_fijian_text e.fijian_word = true ∧ e.english_definition ≠ []) ∧
    (∀ fname content e, e ∈ process_dictionary_txt fname content →
      is_valid_fijian_text e.fijian_word = true ∧ e.english_definition ≠ []) ∧
    ((⟨"bula vinaka".toList, "ok".toList, "d.csv".toList⟩ : DictionaryEntry) ∈
        process_dictionary_csv [wordCol, defCol]
          [("bula vinaka".toList, "ok".toList)] "d.csv".toList ∧
      is_valid_fijian_text "ok".toList = false) := by
  refine ⟨?_, ?_, by decide⟩
  · intro cols rows fname e he
    unfold process_dictionary_csv at he
    split_ifs at he with hcols
    · rcases List.mem_filterMap.1 he with ⟨row, _, hrow⟩
      unfold processCsvRow at hrow
      split_ifs at hrow with hkeep
      · cases hrow
        exact hkeep
    · simp at he
  · intro fname content e he
    rcases List.mem_filterMap.1 he with ⟨p, _, hp⟩
    unfold processTxtLine at hp
    split_ifs at hp
    rcases hsep : splitOnSep (strip p.2) with _ | ⟨p1, p2⟩ <;>
      simp only [hsep] at hp
    · cases hp
    · split_ifs at hp with hkeep
      cases hp
      exact hkeep

/-- Witness for C3: concrete entries from each branch. -/
theorem dictionary_entry_invariant_witness :
    (is_valid_fijian_text "bula vinaka".toList = true ∧
      ("ok".toList : List Char) ≠ []) ∧
    (is_valid_fijian_text "bula vinaka".toList = true ∧
      ("hello".toList : List Char) ≠ []) :=
  ⟨dictionary_entry_invariant.1 [wordCol, defCol]
      [("bula vinaka".toList, "ok".toList)] "d.csv".toList
      ⟨"bula vinaka".toList, "ok".toList, "d.csv".toList⟩ (by decide),
    dictionary_entry_invariant.2.1 "d.txt".toList
      "bula vinaka - hello\n".toList
      ⟨"bula vinaka".toList, "hello".toList, "d.txt:L1".toList⟩ (by decide)⟩

/-- Appending through a fold is appending the mapped list. -/
theorem foldl_push_eq_append_map {α β : Type} (f : α → β) (l : List α)
    (init : List β) :
    l.foldl (fun acc e => acc ++ [f e]) init = init ++ l.map f := by
  induction l generalizing init with
  | nil => simp
  | cons a t ih => simp [ih]

/-- Claim C6: the training-data builder emits one example per dictionary
entry followed by one per sentence, dictionary examples (task type
`definition`) first, sentence examples (task type `completion`) after,
both in source order; empty inputs simply contribute nothing. -/
theorem create_training_data_spec (es : List DictionaryEntry)
    (ss : List (List Char)) :
    create_training_data es ss =
        es.map dictionaryExample ++ ss.map completionExample ∧
      (create_training_data es ss).length = es.length + ss.length ∧
      ((create_training_data es ss).take es.length).all
        (fun t => t.task_type == "definition".toList) = true ∧
      ((create_training_data es ss).drop es.length).all
        (fun t => t.task_type == "completion".toList) = true := by
  have h : create_training_data es ss =
      es.map dictionaryExample ++ ss.map completionExample := by
    unfold create_training_data
    rw [foldl_push_eq_append_map, foldl_push_eq_append_map]
    simp
  refine ⟨h, by rw [h]; simp, ?_, ?_⟩
  · rw [h, show es.length = (es.map dictionaryExample).length by simp,
      List.take_left, List.all_eq_true]
    intro t ht
    rcases List.mem_map.1 ht with ⟨e, _, rfl⟩
    simp [dictionaryExample]
  · rw [h, show es.length = (es.map dictionaryExample).length by simp,
      List.drop_left, List.all_eq_true]
    intro t ht
    rcases List.mem_map.1 ht with ⟨s, _, rfl⟩
    simp [completionExample]

/-- Claim C7: the completion example splits a sentence at character index
`length / 2`: its input is the first half, its output the rest, and the
two concatenate back to the sentence. -/
theorem completion_split (s : List Char) :
    (completionExample s).input = s.take (s.length / 2) ∧
    (completionExample s).output = s.drop (s.length / 2) ∧
    (completionExample s).input ++ (completionExample s).output = s :=
  ⟨rfl, rfl, List.take_append_drop _ _⟩

/-- Claim C8: a file whose lowercased name contains `dict` is routed to
the dictionary extractor regardless of extension, and on an extension
that is neither `.csv` nor `.txt` the extractor returns no entries. -/
theorem dict_route_unsupported_ext (name content : List Char)
    (h1 : containsSub "dict".toList (name.map Char.toLower) = true)
    (h2 : lowerSuffix name ≠ ".csv".toList)
    (h3 : lowerSuffix name ≠ ".txt".toList) :
    classifyFile name = Route.dictionary ∧
      process_dictionary_file name content = [] := by
  constructor
  · unfold classifyFile
    rw [if_pos (Or.inl h1)]
  · unfold process_dictionary_file
    rw [if_neg h2, if_neg h3]

/-- Witness for C8: `my_dict.pdf` with arbitrary content. -/
theorem dict_route_unsupported_ext_witness :
    classifyFile "my_dict.pdf".toList = Route.dictionary ∧
      process_dictionary_file "my_dict.pdf".toList "x - y\n".toList = [] :=
  dict_route_unsupported_ext "my_dict.pdf".toList "x - y\n".toList
    (by decide) (by decide) (by decide)

/-- Filtering after cleaning is the same computation as the extractor's
clean-inside-`filterMap` loop. -/
theorem filterMap_clean_valid (l : List (List Char)) :
    l.filterMap (fun s =>
        if is_valid_fijian_text (cleanText s) = true then some (cleanText s)
        else none) =
      (l.map cleanText).filter is_valid_fijian_text := by
  induction l with
  | nil => rfl
  | cons a t ih =>
    by_cases hv : is_valid_fijian_text (cleanText a) = true <;>
      simp [List.filterMap_cons, List.filter_cons, hv, ih]

/-- Claim C9: a file whose name avoids `dict`/`dictionary` but ends in
`.csv` is routed to the text sentence extractor, which treats the
content as prose: it splits on runs of `.`, `!`, `?`, cleans each
fragment, and keeps the fragments that validate. -/
theorem csv_routes_to_text_extractor (name : List Char)
    (h1 : containsSub "dict".toList (name.map Char.toLower) = false)
    (h2 : containsSub "dictionary".toList (name.map Char.toLower) = false)
    (h3 : lowerSuffix name = ".csv".toList) :
    classifyFile name = Route.text ∧
      ∀ content, process_text_file content =
        ((splitSentences content).map cleanText).filter is_valid_fijian_text := by
  constructor
  · unfold classifyFile
    rw [if_neg (by simp only [h1, h2]; simp), if_pos (Or.inr h3)]
  · intro content
    exact filterMap_clean_valid _

/-- Witness for C9: `words.csv` with a short prose content. -/
theorem csv_routes_to_text_extractor_witness :
    classifyFile "words.csv".toList = Route.text ∧
      ∀ content, process_text_file content =
        ((splitSentences content).map cleanText).filter is_valid_fijian_text :=
  csv_routes_to_text_extractor "words.csv".toList
    (by decide) (by decide) (by decide)

/-- Claim C10: when both guards before the ratio computation of
`is_valid_fijian_text` have passed, the string is non-empty, so the
division `alpha_chars / len(text)` never divides by zero; at that point
validity is decided by the ratio comparison alone. -/
theorem ratio_division_guarded (text : List Char)
    (h1 : ¬(text = [] ∨ (strip text).length < 3))
    (h2 : ¬((pySplit text).length < 2)) :
    0 < text.length ∧
      (is_valid_fijian_text text = true ↔
        3 * text.length ≤ 5 * text.countP Char.isAlpha) := by
  constructor
  · push_neg at h1
    cases text with
    | nil => exact absurd rfl h1.1
    | cons c t => simp
  · unfold is_valid_fijian_text
    rw [if_neg h1, if_neg h2]
    split_ifs with h3
    · simp only [Bool.false_eq_true, false_iff]
      omega
    · simp only [true_iff]
      omega

/-- Counterexample to claim C4 as stated: `clean_text` removes the `@`
of `"a @ b"` after whitespace was collapsed, leaving the two adjacent
spaces of `"a  b"`, which a second application collapses further. -/
theorem cleanText_not_idempotent_at :
    cleanText (cleanText "a @ b".toList) ≠ cleanText "a @ b".toList := by
  decide

/-- Claim C4 (amended): the normalizer is idempotent on every string
containing only characters it keeps (word characters, whitespace, or the
punctuation allow-list); removal of other characters can leave adjacent
spaces that a second pass would collapse. -/
theorem cleanText_idem_on_allowed (x : List Char)
    (hx : ∀ c ∈ x, allowedChar c = true) :
    cleanText (cleanText x) = cleanText x := by
  by_cases hnil : x.isEmpty = true
  · rw [List.isEmpty_iff.1 hnil]
    rfl
  · have hlt : '<' ∉ x := fun hm => absurd (hx '<' hm) (by decide)
    have hall : ∀ c ∈ collapseWs x, allowedChar c = true := by
      intro c hc
      rcases mem_cwAux false x c hc with h | rfl
      · exact hx c h
      · decide
    have hclean : cleanText x = strip (collapseWs x) := by
      unfold cleanText
      rw [if_neg hnil, removeTags_eq_self x hlt, List.filter_eq_self.2 hall]
    rw [hclean]
    have hymem : ∀ c ∈ strip (collapseWs x), allowedChar c = true :=
      fun c hc => hall c (mem_strip _ _ hc)
    by_cases hynil : (strip (collapseWs x)).isEmpty = true
    · rw [List.isEmpty_iff.1 hynil]
      rfl
    · have hylt : '<' ∉ strip (collapseWs x) :=
        fun hm => absurd (hymem _ hm) (by decide)
      have hyws : ∀ c ∈ strip (collapseWs x), isSpace c = true → c = ' ' :=
        fun c hc => cwAux_ws_space false x c (mem_strip _ _ hc)
      have hychain : List.Chain' wsRel (strip (collapseWs x)) :=
        chain_strip _ (cwAux_chain x).2.2
      have hcol : collapseWs (strip (collapseWs x)) = strip (collapseWs x) :=
        (cwAux_eq_self _ hychain hyws).1
      unfold cleanText
      rw [if_neg hynil, removeTags_eq_self _ hylt, hcol,
        List.filter_eq_self.2 hymem, strip_strip]

/-- Witness for C4 (amended) at `"bula  vinaka"` (all characters
allowed, internal double space). -/
theorem cleanText_idem_on_allowed_witness :
    cleanText (cleanText "bula  vinaka".toList) =
      cleanText "bula  vinaka".toList :=
  cleanText_idem_on_allowed "bula  vinaka".toList (by decide)

/-- Counterexample to claim C5 as stated: the output for `"a @ b"` is
`"a  b"`, which contains a run of two spaces, so the output is not free
of whitespace runs longer than one space. -/
theorem cleanText_output_ws_run :
    cleanText "a @ b".toList = "a  b".toList ∧
      ¬ List.Chain' wsRel (cleanText "a @ b".toList) := by
  constructor
  · decide
  · intro h
    rw [show cleanText "a @ b".toList = 'a' :: ' ' :: ' ' :: ['b'] from by
      decide] at h
    exact (List.chain'_cons.1 (List.chain'_cons.1 h).2).1
      ⟨by decide, by decide⟩

/-- Claim C5 (amended): for every input, the normalizer's output has no
angle-bracket tag substring, no leading or trailing whitespace, only
characters from the allowed set, and every whitespace character in it is
a single space character; however runs of more than one space may remain
when disallowed characters are removed between spaces. -/
theorem cleanText_output_shape (x : List Char) :
    (¬∃ a b c, cleanText x = a ++ '<' :: (b ++ '>' :: c)) ∧
      strip (cleanText x) = cleanText x ∧
      (∀ c ∈ cleanText x, allowedChar c = true) ∧
      (∀ c ∈ cleanText x, isSpace c = true → c = ' ') := by
  by_cases hnil : x.isEmpty = true
  · have hx : cleanText x = [] := by
      unfold cleanText
      rw [if_pos hnil]
    refine ⟨?_, by rw [hx]; rfl, ?_, ?_⟩
    · rintro ⟨a, b, c, h⟩
      rw [hx] at h
      exact List.noConfusion (List.append_eq_nil.1 h.symm).2
    · intro c hc
      rw [hx] at hc
      cases hc
    · intro c hc
      rw [hx] at hc
      cases hc
  · have hchar : ∀ c ∈ cleanText x, allowedChar c = true := by
      intro c hc
      unfold cleanText at hc
      rw [if_neg hnil] at hc
      exact (List.mem_filter.1 (mem_strip _ _ hc)).2
    refine ⟨?_, ?_, hchar, ?_⟩
    · rintro ⟨a, b, c, h⟩
      have hm : '<' ∈ cleanText x := by
        rw [h]
        exact List.mem_append_right a (List.mem_cons_self _ _)
      exact absurd (hchar _ hm) (by decide)
    · unfold cleanText
      rw [if_neg hnil]
      exact strip_strip _
    · intro c hc
      unfold cleanText at hc
      rw [if_neg hnil] at hc
      exact cwAux_ws_space false _ c (List.mem_filter.1 (mem_strip _ _ hc)).1

/-- Witness for C5 (amended) at `"x y"`. -/
theorem cleanText_output_shape_witness :
    allowedChar 'x' = true ∧ (' ' : Char) = ' ' :=
  ⟨(cleanText_output_shape "x y".toList).2.2.1 'x' (by decide),
    (cleanText_output_shape "x y".toList).2.2.2 ' ' (by decide) (by decide)⟩

/-- Witness for C10 at `"ab c"`. -/
theorem ratio_division_guarded_witness :
    0 < ("ab c".toList).length ∧
      (is_valid_fijian_text "ab c".toList = true ↔
        3 * ("ab c".toList).length ≤
          5 * ("ab c".toList).countP Char.isAlpha) :=
  ratio_division_guarded "ab c".toList (by decide) (by decide)

end FijianPipeline
